import Mathlib

/-!
# parcel: Buffer and Node (model.go)

A shallow embedding of `model.go`.  `Buffer` is a thin wrapper around Go's
`bytes.Buffer`; the wrapped value is embedded at the level of its two
observable fields, the byte slice `buf` and the read offset `off`
(`0 ≤ off ≤ len(buf)`), as `BytesBuffer`.  The spare capacity of the array
behind `buf` decides whether `Write` extends the slice in place or moves the
unread bytes; `ArrayBuffer` adds that array, for what depends on memory that
the caller shares with the buffer.
-/

namespace Parcel

/-- A byte. -/
abbrev Byte := Fin 256

/-- Binary represents a resource blob content (`type Binary = []byte`). -/
abbrev Binary := List Byte

/-- Error values that the embedded code can return; `none` stands for `nil`. -/
inductive Error where
  | EOF
  deriving DecidableEq, Repr

/-- Whence values of `io.Seeker`. -/
def SeekStart : Int := 0

/-- Whence value `io.SeekCurrent`. -/
def SeekCurrent : Int := 1

/-- Whence value `io.SeekEnd`. -/
def SeekEnd : Int := 2

/-- Go's builtin `copy(dst, src)`: copies `min(len(dst), len(src))` bytes to the
front of `dst`; returns the count and the updated `dst`. -/
def copy (dst src : List Byte) : Nat × List Byte :=
  let n := min dst.length src.length
  (n, src.take n ++ dst.drop n)

/-- Go's `bytes.Buffer`: contents are the bytes `buf[off : len(buf)]`; reads
happen at `buf[off]`, writes at `buf[len(buf)]`. -/
structure BytesBuffer where
  buf : List Byte
  off : Nat
  inv : off ≤ buf.length
  deriving DecidableEq

namespace BytesBuffer

/-- The zero value `bytes.Buffer{}`: an empty buffer ready to use. -/
def zero : BytesBuffer := ⟨[], 0, Nat.le_refl 0⟩

/-- `bytes.NewBuffer(buf)`: a buffer using `buf` as its initial contents. -/
def NewBuffer (buf : List Byte) : BytesBuffer := ⟨buf, 0, Nat.zero_le _⟩

/-- `empty` reports whether the unread portion of the buffer is empty. -/
def empty (b : BytesBuffer) : Bool := decide (b.buf.length ≤ b.off)

/-- `Reset` resets the buffer to be empty (`buf = buf[:0]; off = 0`). -/
def Reset (b : BytesBuffer) : BytesBuffer := ⟨b.buf.take 0, 0, Nat.zero_le _⟩

/-- `Len` returns the number of bytes of the unread portion of the buffer. -/
def Len (b : BytesBuffer) : Nat := b.buf.length - b.off

/-- `String` returns the contents of the unread portion, `string(buf[off:])`. -/
def String (b : BytesBuffer) : List Byte := b.buf.drop b.off

/-- `Read` reads the next `len(p)` bytes from the buffer or until the buffer is
drained.  Returns `(n, err)`, the destination slice after the call and the
buffer after the call. -/
def Read (b : BytesBuffer) (p : List Byte) :
    (Nat × Option Error) × List Byte × BytesBuffer :=
  if b.empty then
    if p.length = 0 then ((0, none), p, b.Reset)
    else ((0, some Error.EOF), p, b.Reset)
  else
    let r := copy p (b.buf.drop b.off)
    ((r.1, none), r.2,
      ⟨b.buf, b.off + min p.length (b.buf.length - b.off), by
        have := b.inv
        omega⟩)

/-- `Write` appends the contents of `p` to the buffer: the slice is extended
by `len(p)` bytes starting at `m = len(buf)` and `p` is copied to `buf[m:]`. -/
def Write (b : BytesBuffer) (p : List Byte) : (Nat × Option Error) × BytesBuffer :=
  let m := b.buf.length
  let grown := b.buf ++ List.replicate p.length (0 : Byte)
  let r := copy (grown.drop m) p
  ((r.1, none), ⟨grown.take m ++ r.2, b.off, by
    have := b.inv
    simp only [List.length_append, List.length_take]
    simp [grown, m]
    omega⟩)

end BytesBuffer

/-- Buffer represents a `*bytes.Buffer` that can be closed.  Both constructors
store a non-nil pointer, so the field is the pointed-to value. -/
structure Buffer where
  buffer : BytesBuffer
  deriving DecidableEq

/-- NewBuffer creates a new Buffer. -/
def NewBuffer : Buffer := ⟨BytesBuffer.zero⟩

/-- NewBufferWith creates a new Buffer with data. -/
def NewBufferWith (data : List Byte) : Buffer := ⟨BytesBuffer.NewBuffer data⟩

namespace Buffer

/-- Read reads the next `len(p)` bytes from the buffer or until the buffer is
drained. -/
def Read (b : Buffer) (p : List Byte) : (Nat × Option Error) × List Byte × Buffer :=
  let r := b.buffer.Read p
  (r.1, r.2.1, ⟨r.2.2⟩)

/-- Write appends the contents of `p` to the buffer, growing the buffer as
needed. -/
def Write (b : Buffer) (p : List Byte) : (Nat × Option Error) × Buffer :=
  let r := b.buffer.Write p
  (r.1, ⟨r.2⟩)

/-- Close closes the buffer (noop). -/
def Close (b : Buffer) : Option Error × Buffer := (none, b)

/-- String returns the contents of the unread portion of the buffer. -/
def String (b : Buffer) : List Byte := b.buffer.String

/-- Seek: the body is `return 0, nil`. -/
def Seek (b : Buffer) (_offset : Int) (_whence : Int) : (Int × Option Error) × Buffer :=
  ((0, none), b)

end Buffer

/-- Reads with the destination slices `ps` one after the other.  Returns the
total of the counts the Reads returned, the bytes they delivered (the first
`n` bytes of each destination) and the buffer afterwards. -/
def readEach (b : Buffer) : List (List Byte) → Nat × List Byte × Buffer
  | [] => (0, [], b)
  | p :: ps =>
    let r := b.Read p
    let s := readEach r.2.2 ps
    (r.1.1 + s.1, r.2.1.take r.1.1 ++ s.2.1, s.2.2)

/-- Reads to completion: Read is called with the destinations `dst i`,
`dst (i+1)`, ... until it returns an error (`io.EOF`); the bytes delivered are
collected.  `none` when `fuel` calls were not enough to reach the error. -/
def readToEOF (dst : Nat → List Byte) : Nat → Nat → Buffer → Option (List Byte × Buffer)
  | 0, _, _ => none
  | fuel + 1, i, b =>
    let r := b.Read (dst i)
    match r.1.2 with
    | some _ => some ([], r.2.2)
    | none =>
      match readToEOF dst fuel (i + 1) r.2.2 with
      | none => none
      | some s => some (r.2.1.take r.1.1 ++ s.1, s.2)

/-- Node represents a hierarchy node in the resource manager. -/
inductive Node where
  | mk (name : String) (dir : Bool) (content : Binary) (children : List Node)

namespace Node

/-- Field `name`. -/
def name : Node → String
  | mk n _ _ _ => n

/-- Field `dir`. -/
def dir : Node → Bool
  | mk _ d _ _ => d

/-- Field `content`. -/
def content : Node → Binary
  | mk _ _ c _ => c

/-- Field `children`. -/
def children : Node → List Node
  | mk _ _ _ cs => cs

/-- Name returns the base name of the file. -/
def Name (n : Node) : String := n.name

/-- Size returns the length in bytes for regular files: `int64(len(n.content))`.
`len` yields an `int`, whose conversion to `int64` keeps the value. -/
def Size (n : Node) : Int := Int.ofNat n.content.length

/-- Mode returns the file mode bits (`os.FileMode`, a `uint32`): `return 0`. -/
def Mode (_n : Node) : Nat := 0

/-- IsDir returns true if the node is directory. -/
def IsDir (n : Node) : Bool := n.dir

/-- Sys returns the underlying data source: `return nil`. -/
def Sys (_n : Node) : Option Unit := none

end Node

/-- NewNodeDir creates a new directory node; `content` and `children` keep
their zero value, the nil slice. -/
def NewNodeDir (name : String) : Node := Node.mk name true [] []

/-- NewNodeFile creates a new file node; `children` keeps its zero value. -/
def NewNodeFile (name : String) (content : Binary) : Node :=
  Node.mk name false content []

/-- A call of one of the five methods of Buffer, with its arguments. -/
inductive Call where
  | Read (p : List Byte)
  | Write (p : List Byte)
  | Close
  | String
  | Seek (offset : Int) (whence : Int)

/-- What a call returns; for Read also the destination slice after the call. -/
inductive Ret where
  | Read (n : Nat) (err : Option Error) (p : List Byte)
  | Write (n : Nat) (err : Option Error)
  | Close (err : Option Error)
  | String (s : List Byte)
  | Seek (pos : Int) (err : Option Error)
  deriving DecidableEq

/-- One method call on a Buffer: what it returns and the Buffer afterwards.
String has no assignment in its body, so the Buffer after it is the receiver. -/
def Buffer.call (b : Buffer) : Call → Ret × Buffer
  | Call.Read p => let r := b.Read p; (Ret.Read r.1.1 r.1.2 r.2.1, r.2.2)
  | Call.Write p => let r := b.Write p; (Ret.Write r.1.1 r.1.2, r.2)
  | Call.Close => let r := b.Close; (Ret.Close r.1, r.2)
  | Call.String => (Ret.String b.String, b)
  | Call.Seek offset whence => let r := b.Seek offset whence; (Ret.Seek r.1.1 r.1.2, r.2)

/-- The bytes a call handed to its caller: for a Read that returned `n`, the
first `n` bytes of the destination; nothing for the other methods. -/
def Ret.delivered : Ret → List Byte
  | Ret.Read n _ p => p.take n
  | _ => []

/-- The bytes a call wrote: the argument of a Write; nothing for the others. -/
def Call.written : Call → List Byte
  | Call.Write p => p
  | _ => []

/-- A finite sequence of calls on a Buffer, one after the other.  Returns all
bytes the Reads delivered, all bytes the Writes were given (both in call
order) and the Buffer afterwards. -/
def Buffer.run (b : Buffer) : List Call → List Byte × List Byte × Buffer
  | [] => ([], [], b)
  | c :: cs =>
    let r := b.call c
    let s := Buffer.run r.2 cs
    (r.1.delivered ++ s.1, c.written ++ s.2.1, s.2.2)

/-- The directory bit `os.ModeDir` of an `os.FileMode`: `1 << 31`. -/
def ModeDir : Nat := 2 ^ 31

/-- The method `os.FileMode.IsDir`: `m&ModeDir != 0`. -/
def FileMode.IsDir (m : Nat) : Bool := (m &&& ModeDir) != 0

/-- Modelled from the spec: what the visit callback of `Walk` receives,
`visit(path, info, err)`: the path of the entry (its components), its
descriptor (`nil` when the entry could not be examined) and the error met on
the way to it (`nil` when there was none). -/
structure Visit (α ε : Type) where
  path : List String
  info : Option α
  err : Option ε

/-- Modelled from the spec: the `FileSystem` capability as far as `Walk` needs
it; the interface is in `model.go`, its implementations (`Dir` and the
Node-backed file system) are not.  For a root (path components, the empty list
for `.`) the file system gives either the error of opening or reading it, or
the entries of the subtree, each with its path and descriptor, the root first,
in traversal order.  `α` is the descriptor, `ε` the error values. -/
structure FileSystem (α ε : Type) where
  list : List String → Except ε (List (List String × α))

/-- Modelled from the spec: the visit loop of `Walk` ("a visit callback's own
error aborts Walk and is returned unchanged to the Walk caller").  The
callback is called on the entries in order, with a state `σ` of its own, until
it returns an error.  Returns the callback's last state, the error `Walk`
returns and the calls made, each with what the callback returned. -/
def visitEach {α ε σ : Type} (visit : σ → α → σ × Option ε) :
    List α → σ → (σ × Option ε) × List (α × Option ε)
  | [], s => ((s, none), [])
  | a :: rest, s =>
    match visit s a with
    | (s1, some err) => ((s1, some err), [(a, some err)])
    | (s1, none) =>
      let r := visitEach visit rest s1
      (r.1, (a, none) :: r.2)

/-- Modelled from the spec: `Walk(root, visit)` of a `FileSystem`; the
implementations of `Walk` are not among the source files.  "Any error
opening/reading the root" is "surfaced once": the callback is called on the
root with no descriptor and that error, and what it returns is the result, as
in the test of a walk over the missing root `/wrong`.  Otherwise the callback
is called on "the root itself and every descendant", in order, without an
error, until it returns one. -/
def FileSystem.Walk {α ε σ : Type} (fs : FileSystem α ε) (root : List String)
    (visit : σ → Visit α ε → σ × Option ε) (s : σ) :
    (σ × Option ε) × List (Visit α ε × Option ε) :=
  match fs.list root with
  | Except.error err => visitEach visit [⟨root, none, some err⟩] s
  | Except.ok entries =>
    visitEach visit (entries.map (fun e => (⟨e.1, some e.2, none⟩ : Visit α ε))) s

/-- Bundle represents a bundled resource: its name, the count of files in the
bundle and the body of the resource. -/
structure Bundle where
  Name : String
  Length : Int
  Body : List Byte
  deriving DecidableEq

/-- Modelled from the spec: one entry as `Compress` records it while it walks
("relative path, directory-vs-file flag, and, for files, their full content").
The path is the list of its components below the walked root; the root itself
has the empty path.  No implementation of `Compress` is among the source
files. -/
inductive Entry where
  | dir (path : List String)
  | file (path : List String) (content : Binary)
  deriving DecidableEq

/-- Modelled from the spec: the relative path of an entry. -/
def Entry.path : Entry → List String
  | Entry.dir p => p
  | Entry.file p _ => p

/-- Modelled from the spec: the errors of the parts whose code is missing, the
not-found error of a Walk over a missing root and the corruption error of
`Compose`. -/
inductive Failure where
  | notFound
  | corruption
  deriving DecidableEq

mutual
/-- Modelled from the spec: `Walk` of the Node-backed file system, "a
depth-first, pre-order traversal of the Node subtree", children "in the order
they were attached".  `path` is the path of the node below the walked root.
The implementation is not among the source files. -/
def Node.walk (path : List String) : Node → List Entry
  | Node.mk _ dir content children =>
    (if dir then Entry.dir path else Entry.file path content) :: walkChildren path children
/-- Modelled from the spec: the traversal of the children of a node at `path`,
one after the other. -/
def walkChildren (path : List String) : List Node → List Entry
  | [] => []
  | c :: cs => Node.walk (path ++ [c.name]) c ++ walkChildren path cs
end

/-- Modelled from the spec: resolution of a path to a Node "by walking the path
components from the root"; `none` when a component is missing. -/
def Node.find : List String → Node → Option Node
  | [], n => some n
  | nm :: rest, Node.mk _ _ _ children =>
    match children.find? (fun c => c.name == nm) with
    | none => none
    | some c => Node.find rest c

/-- Modelled from the spec: the Node-backed file system over the tree `x`; a
walk of a root that does not exist "fails with a not-found error". -/
def Node.fileSystem (x : Node) : FileSystem Entry Failure :=
  ⟨fun root =>
    match x.find root with
    | none => Except.error Failure.notFound
    | some n => Except.ok ((n.walk []).map (fun e => (e.path, e)))⟩

/-- Modelled from the spec: the private pair of `Compress` and `Compose` that
turns the ordered entry list into the body of a Bundle (serialization followed
by byte compression) and back (`none` when decompression or decoding fails).
The spec leaves the format open, so the pair is a parameter. -/
structure Codec where
  encode : List Entry → List Byte
  decode : List Byte → Option (List Entry)

/-- Modelled from the spec: the visit callback of `Compress`: an error handed
to it ends the walk with that error, an entry is recorded behind the ones
recorded before. -/
def record {ε : Type} (acc : List Entry) (v : Visit Entry ε) : List Entry × Option ε :=
  match v.err, v.info with
  | some err, _ => (acc, some err)
  | none, some e => (acc ++ [e], none)
  | none, none => (acc, none)

/-- Modelled from the spec: `Compress(fileSystem)`, which "walks `fileSystem`
from its root", records every visited entry in order and returns a Bundle
"whose `length` equals the total entry count" and whose body is the encoded
entry list; it "fails if the walk fails".  Only the `Compressor` interface is
among the source files. -/
def Compress {ε : Type} (codec : Codec) (name : String) (fs : FileSystem Entry ε) :
    Except ε Bundle :=
  match fs.Walk [] record [] with
  | ((_, some err), _) => Except.error err
  | ((acc, none), _) => Except.ok ⟨name, Int.ofNat acc.length, codec.encode acc⟩

/-- Modelled from the spec: the node `Compose` creates for an entry whose path
below an existing node is `nm :: rest` and does not exist yet, "creating any
missing ancestor directory Nodes along the way". -/
def createAt (e : Entry) : String → List String → Node
  | nm, [] =>
    match e with
    | Entry.dir _ => NewNodeDir nm
    | Entry.file _ c => NewNodeFile nm c
  | nm, r :: rest => Node.mk nm true [] [createAt e r rest]

/-- Modelled from the spec: among the children, the first one named `nm` is
replaced by `f` of it; when there is none, `new` is attached behind the
others. -/
def updateChild (nm : String) (f : Node → Node) (new : Node) : List Node → List Node
  | [] => [new]
  | c :: cs => if c.name = nm then f c :: cs else c :: updateChild nm f new cs

/-- Modelled from the spec: `Compose` replays one entry into the tree.  At the
end of the path a directory entry reuses the node found and a file entry
replaces it (last write wins); a missing node is created and attached to its
parent. -/
def place (e : Entry) : List String → Node → Node
  | [], n =>
    match e with
    | Entry.dir _ => n
    | Entry.file _ c => NewNodeFile n.name c
  | nm :: rest, Node.mk name dir content children =>
    Node.mk name dir content (updateChild nm (place e rest) (createAt e nm rest) children)

/-- Modelled from the spec: `Compose(bundle)` on the tree `root`: the body is
decoded, a failure to decode or a "decoded entry count" that "does not equal
`bundle.length`" is a corruption error, and otherwise the entries are replayed
in order.  Only the `Composer` interface is among the source files. -/
def Compose (codec : Codec) (bundle : Bundle) (root : Node) : Except Failure Node :=
  match codec.decode bundle.Body with
  | none => Except.error Failure.corruption
  | some entries =>
    if Int.ofNat entries.length = bundle.Length then
      Except.ok (entries.foldl (fun t e => place e e.path t) root)
    else Except.error Failure.corruption

/-- Modelled from the spec: the entries after the root in the listing of a file
tree, given the entries `seen` before them: each has a path that is not empty
and not seen before, and comes after the directory entry of its parent
("directories before their contents"). -/
def validFrom (seen : List Entry) : List Entry → Bool
  | [] => true
  | e :: es =>
    !e.path.isEmpty && seen.all (fun x => decide (x.path ≠ e.path))
      && seen.contains (Entry.dir e.path.dropLast) && validFrom (e :: seen) es

/-- Modelled from the spec: the listing of a file tree as a walk from its root
yields it: the root first, a directory with the empty path, then the other
entries, each path once and below a directory listed before it. -/
def validListing : List Entry → Bool
  | Entry.dir [] :: es => validFrom [Entry.dir []] es
  | _ => false

/-- An example of an entry encoding, for short names and contents: a name is
its length and its characters, one byte each. -/
def encodeName (s : String) : List Byte :=
  Fin.ofNat s.data.length :: s.data.map (fun c => Fin.ofNat c.toNat)

/-- An example of an entry encoding: the kind (0 for a directory, 1 for a
file), the number of path components, the components, and for a file the
length of the content and the content. -/
def encodeEntry : Entry → List Byte
  | Entry.dir p => 0 :: Fin.ofNat p.length :: p.flatMap encodeName
  | Entry.file p c => (1 :: Fin.ofNat p.length :: p.flatMap encodeName) ++ Fin.ofNat c.length :: c

/-- The first `n` bytes and the rest, when there are `n` bytes. -/
def takeBytes (n : Nat) (bs : List Byte) : Option (List Byte × List Byte) :=
  if n ≤ bs.length then some (bs.take n, bs.drop n) else none

/-- Decodes one name written by `encodeName`. -/
def decodeName : List Byte → Option (String × List Byte)
  | [] => none
  | n :: rest =>
    match takeBytes n.val rest with
    | none => none
    | some (cs, r) => some (String.mk (cs.map (fun b => Char.ofNat b.val)), r)

/-- Decodes `k` names. -/
def decodeNames : Nat → List Byte → Option (List String × List Byte)
  | 0, bs => some ([], bs)
  | k + 1, bs =>
    match decodeName bs with
    | none => none
    | some (s, r) =>
      match decodeNames k r with
      | none => none
      | some (ss, r2) => some (s :: ss, r2)

/-- Decodes one entry written by `encodeEntry`. -/
def decodeEntry : List Byte → Option (Entry × List Byte)
  | [] => none
  | [_] => none
  | tag :: k :: rest =>
    match decodeNames k.val rest with
    | none => none
    | some (p, r) =>
      if tag = 0 then some (Entry.dir p, r)
      else
        match r with
        | [] => none
        | n :: r2 =>
          match takeBytes n.val r2 with
          | none => none
          | some (c, r3) => some (Entry.file p c, r3)

/-- Decodes entries until the bytes are used up, in at most `fuel` steps. -/
def decodeEntries : Nat → List Byte → Option (List Entry)
  | 0, bs => if bs = [] then some [] else none
  | fuel + 1, bs =>
    if bs = [] then some []
    else
      match decodeEntry bs with
      | none => none
      | some (e, r) =>
        match decodeEntries fuel r with
        | none => none
        | some es => some (e :: es)

/-- An example of a Codec: entries written one after the other, without
compression. -/
def plainCodec : Codec :=
  ⟨fun es => es.flatMap encodeEntry, fun bs => decodeEntries bs.length bs⟩

/-- An example of a Node tree: a root with the directory `a`, holding the file
`x` and the empty directory `e`, and with the file `b`. -/
def sampleTree : Node :=
  Node.mk "root" true []
    [Node.mk "a" true [] [NewNodeFile "x" [1, 2], NewNodeDir "e"], NewNodeFile "b" [3]]

/-- The slice `array[pos : pos+n]` of an array. -/
def window (array : List Byte) (pos n : Nat) : List Byte := (array.drop pos).take n

/-- The array after `copy(array[pos : pos+len(src)], src)`. -/
def put (array : List Byte) (pos : Nat) (src : List Byte) : List Byte :=
  array.take pos ++ (copy (window array pos src.length) src).2 ++ array.drop (pos + src.length)

/-- The argument `p` of a Write, by where its bytes lie: in memory of its own,
or in the array behind the buffer, as the slice `array[lo : lo+n]` of it. -/
inductive Arg where
  | own (bytes : List Byte)
  | shared (lo : Nat) (n : Nat)

/-- The bytes of `p`, given the contents of the array behind the buffer. -/
def Arg.bytes (array : List Byte) : Arg → List Byte
  | Arg.own bs => bs
  | Arg.shared lo n => window array lo n

/-- Go's `bytes.Buffer` together with the array behind `buf`: `buf` is
`array[:len]`, `cap(buf)` is the length of the array and the unread bytes are
`array[off : len]`.  `BytesBuffer` is this state without the array. -/
structure ArrayBuffer where
  array : List Byte
  len : Nat
  off : Nat
  inv : off ≤ len ∧ len ≤ array.length

namespace ArrayBuffer

/-- The buffer that `bytes.NewBuffer(array[:len])` makes, the call in
NewBufferWith: the buffer takes the array of the slice it is given. -/
def NewBuffer (array : List Byte) (len : Nat) (h : len ≤ array.length) : ArrayBuffer :=
  ⟨array, len, 0, Nat.zero_le _, h⟩

/-- The unread portion `buf[off:]`. -/
def unread (b : ArrayBuffer) : List Byte := (b.array.take b.len).drop b.off

/-- The Buffer with the same `buf` and `off`, the array left out. -/
def toBuffer (b : ArrayBuffer) : Buffer :=
  ⟨⟨b.array.take b.len, b.off, by
    have := b.inv
    simp only [List.length_take]
    omega⟩⟩

/-- `Read` with the array: as `BytesBuffer.Read`; the array is not written,
an empty buffer is reset (`buf = buf[:0]; off = 0`). -/
def Read (b : ArrayBuffer) (p : List Byte) :
    (Nat × Option Error) × List Byte × ArrayBuffer :=
  if b.len ≤ b.off then
    if p.length = 0 then ((0, none), p, ⟨b.array, 0, 0, Nat.le_refl 0, Nat.zero_le _⟩)
    else ((0, some Error.EOF), p, ⟨b.array, 0, 0, Nat.le_refl 0, Nat.zero_le _⟩)
  else
    (((copy p b.unread).1, none), (copy p b.unread).2,
      ⟨b.array, b.len, b.off + min p.length (b.len - b.off), by
        have := b.inv
        omega⟩)

/-- `Write` with the array: `m, ok := b.tryGrowByReslice(len(p)); if !ok
{ m = b.grow(len(p)) }; return copy(b.buf[m:], p), nil`.  With `n = len(p)`:
when `n ≤ cap(buf) - len(buf)` the slice is extended in place; otherwise `grow`
resets an empty buffer and tries that again, else with `n ≤ cap/2 - m` for the
`m` unread bytes it moves them to the front of the array
(`copy(b.buf, b.buf[b.off:])`), else it moves them to a new array, of capacity
`m + n` and `slack` more.  Returns `(n, err)`, the buffer and the bytes of `p`
after the call.  The panic with `ErrTooLarge` is left out. -/
def Write (slack : Nat) (b : ArrayBuffer) (p : Arg) :
    (Nat × Option Error) × ArrayBuffer × List Byte :=
  if h1 : (p.bytes b.array).length ≤ b.array.length - b.len then
    (((copy (window b.array b.len (p.bytes b.array).length) (p.bytes b.array)).1, none),
      ⟨put b.array b.len (p.bytes b.array), b.len + (p.bytes b.array).length, b.off, by
        have := b.inv
        simp only [put, copy, window, List.length_append, List.length_take, List.length_drop]
        omega⟩,
      p.bytes (put b.array b.len (p.bytes b.array)))
  else if h2 : (b.len - b.off = 0 ∧ b.off ≠ 0)
      ∧ (p.bytes b.array).length ≤ b.array.length then
    (((copy (window b.array 0 (p.bytes b.array).length) (p.bytes b.array)).1, none),
      ⟨put b.array 0 (p.bytes b.array), (p.bytes b.array).length, 0, by
        simp only [put, copy, window, List.length_append, List.length_take, List.length_drop]
        omega⟩,
      p.bytes (put b.array 0 (p.bytes b.array)))
  else if h3 : (p.bytes b.array).length + (b.len - b.off) ≤ b.array.length / 2 then
    (((copy (window (put b.array 0 b.unread) (b.len - b.off) (p.bytes b.array).length)
          (p.bytes (put b.array 0 b.unread))).1, none),
      ⟨put (put b.array 0 b.unread) (b.len - b.off) (p.bytes (put b.array 0 b.unread)),
        (b.len - b.off) + (p.bytes b.array).length, 0, by
        simp only [put, copy, window, List.length_append, List.length_take, List.length_drop]
        omega⟩,
      p.bytes (put (put b.array 0 b.unread) (b.len - b.off) (p.bytes (put b.array 0 b.unread))))
  else
    (((copy (window (b.unread ++ List.replicate ((p.bytes b.array).length + slack) (0 : Byte))
          (b.len - b.off) (p.bytes b.array).length) (p.bytes b.array)).1, none),
      ⟨put (b.unread ++ List.replicate ((p.bytes b.array).length + slack) (0 : Byte))
          (b.len - b.off) (p.bytes b.array),
        (b.len - b.off) + (p.bytes b.array).length, 0, by
        have := b.inv
        simp only [put, copy, window, unread, List.length_append, List.length_take,
          List.length_drop, List.length_replicate]
        omega⟩,
      p.bytes b.array)

end ArrayBuffer

/-! ## Auxiliary facts about the embedded operations -/

theorem BytesBuffer.eq_of_fields {a b : BytesBuffer} (h1 : a.buf = b.buf)
    (h2 : a.off = b.off) : a = b := by
  cases a
  cases b
  simp_all

theorem copy_fst (dst src : List Byte) : (copy dst src).1 = min dst.length src.length := rfl

theorem copy_snd (dst src : List Byte) :
    (copy dst src).2 = src.take (min dst.length src.length)
      ++ dst.drop (min dst.length src.length) := rfl

theorem Buffer.string_length (b : Buffer) :
    b.String.length = b.buffer.buf.length - b.buffer.off := by
  simp [Buffer.String, BytesBuffer.String]

theorem Buffer.empty_iff_string (b : Buffer) : b.buffer.empty = true ↔ b.String = [] := by
  simp [BytesBuffer.empty, Buffer.String, BytesBuffer.String]

theorem Buffer.read_drained (b : Buffer) (p : List Byte) (h : b.String = []) :
    b.Read p = ((0, if p.length = 0 then none else some Error.EOF), p, NewBuffer) := by
  have he : b.buffer.empty = true := (Buffer.empty_iff_string b).2 h
  unfold Buffer.Read BytesBuffer.Read
  rw [he]
  by_cases hp : p.length = 0
  · simp [hp, BytesBuffer.Reset, NewBuffer, BytesBuffer.zero]
  · simp [hp, BytesBuffer.Reset, NewBuffer, BytesBuffer.zero]

theorem Buffer.read_result (b : Buffer) (p : List Byte) (h : b.String ≠ []) :
    (b.Read p).1 = (min p.length b.String.length, none)
      ∧ (b.Read p).2.1 = b.String.take (min p.length b.String.length)
          ++ p.drop (min p.length b.String.length)
      ∧ (b.Read p).2.2.String = b.String.drop (min p.length b.String.length) := by
  have he : b.buffer.empty = false := by
    cases hb : b.buffer.empty
    · rfl
    · exact absurd ((Buffer.empty_iff_string b).1 hb) h
  unfold Buffer.Read BytesBuffer.Read
  rw [he]
  refine ⟨?_, ?_, ?_⟩
  · simp [copy_fst, Buffer.String, BytesBuffer.String]
  · simp [copy_snd, Buffer.String, BytesBuffer.String]
  · simp [Buffer.String, BytesBuffer.String, List.drop_drop, Nat.add_comm]

theorem Buffer.write_result (b : Buffer) (p : List Byte) :
    (b.Write p).1 = (p.length, none)
      ∧ (b.Write p).2.buffer.buf = b.buffer.buf ++ p
      ∧ (b.Write p).2.buffer.off = b.buffer.off := by
  unfold Buffer.Write BytesBuffer.Write
  refine ⟨?_, ?_, ?_⟩
  · simp [copy_fst]
  · simp [copy_snd]
  · rfl

theorem Buffer.string_write (b : Buffer) (p : List Byte) :
    (b.Write p).2.String = b.String ++ p := by
  obtain ⟨-, hb, ho⟩ := Buffer.write_result b p
  have hinv := b.buffer.inv
  unfold Buffer.String BytesBuffer.String
  rw [hb, ho, List.drop_append_of_le_length hinv]

/-! ## Buffer: Seek, Read, Write -/

/-- C1: Seek reports position zero and moves nothing.  For every Buffer, offset
and whence, Seek returns `(0, nil)`, the buffer is the one it was, so String
returns the same bytes and every following Read gives the same result. -/
theorem seek_reports_zero_and_keeps_cursor (b : Buffer) (offset whence : Int) :
    (b.Seek offset whence).1 = (0, none)
      ∧ (b.Seek offset whence).2 = b
      ∧ (b.Seek offset whence).2.String = b.String
      ∧ ∀ p : List Byte, (b.Seek offset whence).2.Read p = b.Read p :=
  ⟨rfl, rfl, rfl, fun _ => rfl⟩

/-- C2 (the code at the failing input): on `NewBufferWith [1, 2, 3]`,
`Seek(1, io.SeekStart)` returns `(0, nil)`, not `(1, nil)`, and the next Read
into two bytes delivers `[1, 2]`, the bytes from index 0, not `[2, 3]`. -/
theorem seek_start_one_does_not_move :
    ((NewBufferWith [1, 2, 3]).Seek 1 SeekStart).1 = (0, none)
      ∧ ((NewBufferWith [1, 2, 3]).Seek 1 SeekStart).1 ≠ (1, none)
      ∧ (((NewBufferWith [1, 2, 3]).Seek 1 SeekStart).2.Read [0, 0]).1 = (2, none)
      ∧ (((NewBufferWith [1, 2, 3]).Seek 1 SeekStart).2.Read [0, 0]).2.1 = [1, 2]
      ∧ (((NewBufferWith [1, 2, 3]).Seek 1 SeekStart).2.Read [0, 0]).2.1
          ≠ List.drop 1 [1, 2, 3] := by
  decide

/-- C3: Read of a buffer that is not drained.  With unread contents `u ≠ []`
and a destination `p`, Read returns `(n, nil)` for `n = min(len p, len u)`;
afterwards the first `n` bytes of `p` are the first `n` bytes of `u`, the
bytes of `p` from index `n` on and its length are as before, and the unread
contents are `u` without its first `n` bytes. -/
theorem read_delivers_next_bytes (b : Buffer) (p : List Byte) (h : b.String ≠ []) :
    (b.Read p).1 = (min p.length b.String.length, none)
      ∧ (b.Read p).2.1.take (min p.length b.String.length)
          = b.String.take (min p.length b.String.length)
      ∧ (b.Read p).2.1.drop (min p.length b.String.length)
          = p.drop (min p.length b.String.length)
      ∧ (b.Read p).2.1.length = p.length
      ∧ (b.Read p).2.2.String = b.String.drop (min p.length b.String.length) := by
  obtain ⟨h1, h2, h3⟩ := Buffer.read_result b p h
  have hlen : (b.String.take (min p.length b.String.length)).length
      = min p.length b.String.length := by
    rw [List.length_take]
    omega
  refine ⟨h1, ?_, ?_, ?_, h3⟩
  · rw [h2, List.take_append_of_le_length (le_of_eq hlen.symm), List.take_of_length_le]
    exact le_of_eq hlen
  · rw [h2, List.drop_append_of_le_length (le_of_eq hlen.symm), List.drop_of_length_le,
      List.nil_append]
    exact le_of_eq hlen
  · rw [h2, List.length_append, hlen, List.length_drop]
    omega

/-- Witness of C3: three unread bytes read into a destination of two. -/
theorem read_delivers_next_bytes_witness :
    ((NewBufferWith [1, 2, 3]).Read [9, 9]).1 = (2, none)
      ∧ ((NewBufferWith [1, 2, 3]).Read [9, 9]).2.2.String = [3] := by
  have h := read_delivers_next_bytes (NewBufferWith [1, 2, 3]) [9, 9] (by decide)
  exact ⟨h.1, h.2.2.2.2⟩

/-- C4: Read has an error exactly when the buffer is drained and bytes were
asked for.  The error is non-nil iff the unread contents are empty and
`len p > 0`; then the result is `(0, io.EOF)`, `p` is untouched and the unread
contents stay empty; with empty unread contents and `len p = 0` the result is
`(0, nil)`. -/
theorem read_error_iff_drained (b : Buffer) (p : List Byte) :
    ((b.Read p).1.2 ≠ none ↔ (b.String = [] ∧ 0 < p.length))
      ∧ (b.String = [] → 0 < p.length →
          (b.Read p).1 = (0, some Error.EOF) ∧ (b.Read p).2.1 = p
            ∧ (b.Read p).2.2.String = [])
      ∧ (b.String = [] → p.length = 0 → (b.Read p).1 = (0, none)) := by
  refine ⟨?_, ?_, ?_⟩
  · by_cases hs : b.String = []
    · rw [Buffer.read_drained b p hs]
      by_cases hp : p.length = 0
      · simp [hp, hs]
      · simp [hp, hs, Nat.pos_of_ne_zero hp]
    · rw [(Buffer.read_result b p hs).1]
      simp [hs]
  · intro hs hp
    rw [Buffer.read_drained b p hs]
    have : p.length ≠ 0 := Nat.pos_iff_ne_zero.mp hp
    simp [this]
    rfl
  · intro hs hp
    rw [Buffer.read_drained b p hs]
    simp [hp]

/-- Witness of C4: a Read of one byte from a fresh, empty Buffer. -/
theorem read_error_iff_drained_witness :
    (NewBuffer.Read [5]).1 = (0, some Error.EOF) ∧ (NewBuffer.Read [5]).2.1 = [5]
      ∧ (NewBuffer.Read [5]).2.2.String = [] :=
  (read_error_iff_drained NewBuffer [5]).2.1 (by decide) (by decide)

theorem window_length (array : List Byte) (pos n : Nat) (h : pos + n ≤ array.length) :
    (window array pos n).length = n := by
  simp only [window, List.length_take, List.length_drop]
  omega

theorem copy_full (dst src : List Byte) (h : dst.length = src.length) :
    copy dst src = (src.length, src) := by
  simp [copy, h]

theorem take_put (array : List Byte) (pos : Nat) (src : List Byte)
    (h : pos + src.length ≤ array.length) :
    (put array pos src).take (pos + src.length) = array.take pos ++ src := by
  have hw := window_length array pos src.length h
  have hpos : (array.take pos).length = pos := by
    rw [List.length_take]
    omega
  rw [put, copy_full _ _ hw, List.append_assoc]
  have hl : (array.take pos ++ src).length = pos + src.length := by
    rw [List.length_append, hpos]
  rw [← List.append_assoc, ← hl, List.take_left]

theorem ArrayBuffer.unread_length (b : ArrayBuffer) : b.unread.length = b.len - b.off := by
  have := b.inv
  simp only [ArrayBuffer.unread, List.length_drop, List.length_take]
  omega

theorem put_length (array : List Byte) (pos : Nat) (src : List Byte) :
    (put array pos src).length = array.length := by
  simp only [put, copy, window, List.length_append, List.length_take, List.length_drop]
  omega

theorem Arg.bytes_length (p : Arg) (a1 a2 : List Byte) (h : a1.length = a2.length) :
    (p.bytes a1).length = (p.bytes a2).length := by
  cases p with
  | own bs => rfl
  | shared lo n => simp only [Arg.bytes, window, List.length_take, List.length_drop, h]

theorem ArrayBuffer.write_count (slack : Nat) (b : ArrayBuffer) (p : Arg) :
    (b.Write slack p).1 = ((p.bytes b.array).length, none) := by
  have hinv := b.inv
  have hu := b.unread_length
  unfold ArrayBuffer.Write
  split
  · next h1 =>
    rw [copy_full _ _ (window_length _ _ _ (by omega))]
  · split
    · next h1 h2 =>
      rw [copy_full _ _ (window_length _ _ _ (by omega))]
    · split
      · next h1 h2 h3 =>
        have hp := Arg.bytes_length p (put b.array 0 b.unread) b.array (put_length _ _ _)
        have hw := window_length (put b.array 0 b.unread) (b.len - b.off)
          (p.bytes b.array).length (by rw [put_length]; omega)
        rw [copy_fst, hw, hp, Nat.min_self]
      · next h1 h2 h3 =>
        rw [copy_full _ _ (window_length _ _ _ (by
          rw [List.length_append, List.length_replicate, hu]
          omega))]

theorem ArrayBuffer.write_own (slack : Nat) (b : ArrayBuffer) (p : List Byte) :
    (b.Write slack (Arg.own p)).2.1.unread = b.unread ++ p
      ∧ (b.Write slack (Arg.own p)).2.2 = p := by
  have hinv := b.inv
  have hu := b.unread_length
  have hb : ∀ a : List Byte, (Arg.own p).bytes a = p := fun _ => rfl
  unfold ArrayBuffer.Write
  simp only [hb]
  split
  · next h1 =>
    refine ⟨?_, rfl⟩
    simp only [ArrayBuffer.unread]
    rw [take_put _ _ _ (by omega), List.drop_append_of_le_length (by
      rw [List.length_take]
      omega)]
  · split
    · next h1 h2 =>
      refine ⟨?_, rfl⟩
      have hnil : b.unread = [] := List.length_eq_zero.mp (by omega)
      simp only [ArrayBuffer.unread] at hnil ⊢
      rw [hnil, List.drop_zero]
      have h := take_put b.array 0 p (by omega)
      rw [Nat.zero_add, List.take_zero] at h
      exact h
    · split
      · next h1 h2 h3 =>
        refine ⟨?_, rfl⟩
        have h0 := take_put b.array 0 b.unread (by omega)
        rw [Nat.zero_add, List.take_zero, List.nil_append, hu] at h0
        have h := take_put (put b.array 0 b.unread) (b.len - b.off) p (by
          rw [put_length]
          omega)
        rw [h0] at h
        simp only [ArrayBuffer.unread] at h ⊢
        rw [List.drop_zero]
        exact h
      · next h1 h2 h3 =>
        refine ⟨?_, rfl⟩
        have h := take_put (b.unread ++ List.replicate (p.length + slack) (0 : Byte))
          (b.len - b.off) p (by
            rw [List.length_append, List.length_replicate, hu]
            omega)
        have ht : (b.unread ++ List.replicate (p.length + slack) (0 : Byte)).take
            (b.len - b.off) = b.unread := by
          rw [← hu, List.take_left]
        rw [ht] at h
        simp only [ArrayBuffer.unread] at h ⊢
        rw [List.drop_zero]
        exact h

/-- C5 as written fails when `p` lies in the array behind the buffer.  With
`arr = [1, 2, 3, 4]`, `NewBufferWith(arr[:1])` and `p = arr[2:4] = [3, 4]`,
`Write(p)` extends the slice in place and copies to `arr[1:3]`: the array
becomes `[1, 3, 4, 4]`, the unread contents `[1, 3, 4]`, and `p` is `[4, 4]`
afterwards.  With `arr = [1, ..., 8]`, `NewBufferWith(arr)`, a Read of six bytes
and `p = arr[0:2] = [1, 2]`, `Write(p)` first moves the unread `[7, 8]` to the
front of the array, over `p`, and the unread contents become `[7, 8, 7, 8]`,
not `[7, 8, 1, 2]`. -/
theorem write_overwrites_shared_argument :
    (Arg.shared 2 2).bytes [1, 2, 3, 4] = [3, 4]
      ∧ ((ArrayBuffer.NewBuffer [1, 2, 3, 4] 1 (by decide)).Write 0 (Arg.shared 2 2)).1
          = (2, none)
      ∧ ((ArrayBuffer.NewBuffer [1, 2, 3, 4] 1 (by decide)).Write 0 (Arg.shared 2 2)).2.1.array
          = [1, 3, 4, 4]
      ∧ ((ArrayBuffer.NewBuffer [1, 2, 3, 4] 1 (by decide)).Write 0 (Arg.shared 2 2)).2.1.unread
          = [1, 3, 4]
      ∧ ((ArrayBuffer.NewBuffer [1, 2, 3, 4] 1 (by decide)).Write 0 (Arg.shared 2 2)).2.2
          = [4, 4]
      ∧ ((ArrayBuffer.NewBuffer [1, 2, 3, 4] 1 (by decide)).Write 0 (Arg.shared 2 2)).2.2
          ≠ (Arg.shared 2 2).bytes [1, 2, 3, 4]
      ∧ ((ArrayBuffer.NewBuffer [1, 2, 3, 4, 5, 6, 7, 8] 8 (by decide)).Read
            [0, 0, 0, 0, 0, 0]).2.2.unread = [7, 8]
      ∧ (((ArrayBuffer.NewBuffer [1, 2, 3, 4, 5, 6, 7, 8] 8 (by decide)).Read
            [0, 0, 0, 0, 0, 0]).2.2.Write 0 (Arg.shared 0 2)).2.1.unread = [7, 8, 7, 8]
      ∧ (((ArrayBuffer.NewBuffer [1, 2, 3, 4, 5, 6, 7, 8] 8 (by decide)).Read
            [0, 0, 0, 0, 0, 0]).2.2.Write 0 (Arg.shared 0 2)).2.1.unread
          ≠ [7, 8] ++ (Arg.shared 0 2).bytes [1, 2, 3, 4, 5, 6, 7, 8] := by
  decide

/-- C5 amended: Write appends the contents of a `p` that shares no memory with
the buffer.  For every buffer, with any array behind it, and every `p`, Write
returns `(len p, nil)`; when `p` lies in memory of its own, the unread
contents afterwards are those before followed by `p`, and `p` is unchanged.
These unread contents are the ones `Buffer.Write` gives on the contents of
`buf` and `off` alone, where for every Buffer with unread contents `u` Write
returns `(len p, nil)` and leaves `u ++ p` unread. -/
theorem write_appends_unshared (slack : Nat) (b : ArrayBuffer) (a : Arg) (p : List Byte)
    (v : Buffer) :
    (b.Write slack a).1 = ((a.bytes b.array).length, none)
      ∧ (b.Write slack (Arg.own p)).1 = (p.length, none)
      ∧ (b.Write slack (Arg.own p)).2.1.unread = b.unread ++ p
      ∧ (b.Write slack (Arg.own p)).2.2 = p
      ∧ (b.Write slack (Arg.own p)).2.1.toBuffer.String = (b.toBuffer.Write p).2.String
      ∧ (v.Write p).1 = (p.length, none)
      ∧ (v.Write p).2.String = v.String ++ p := by
  obtain ⟨h1, h2⟩ := ArrayBuffer.write_own slack b p
  refine ⟨ArrayBuffer.write_count slack b a, ArrayBuffer.write_count slack b (Arg.own p),
    h1, h2, ?_, (Buffer.write_result v p).1, Buffer.string_write v p⟩
  rw [Buffer.string_write]
  exact h1

/-! ## Buffer: reading to completion, Close, String -/

theorem readToEOF_drains (dst : Nat → List Byte) (hd : ∀ i, dst i ≠ []) :
    ∀ (fuel i : Nat) (b : Buffer), b.String.length + 1 ≤ fuel →
      readToEOF dst fuel i b = some (b.String, NewBuffer) := by
  intro fuel
  induction fuel with
  | zero => intro i b h; omega
  | succ fuel ih =>
    intro i b h
    have hpos : (dst i).length ≠ 0 := by
      intro h0
      exact hd i (List.length_eq_zero.mp h0)
    by_cases hs : b.String = []
    · simp [readToEOF, Buffer.read_drained b (dst i) hs, hpos, hs]
    · obtain ⟨h1, h2, h3⟩ := Buffer.read_result b (dst i) hs
      have hu : 0 < b.String.length := List.length_pos.mpr hs
      have hrec := ih (i + 1) (b.Read (dst i)).2.2 (by
        rw [h3, List.length_drop]
        omega)
      rw [readToEOF]
      simp only [h1, hrec, h2, h3]
      have hlen : (b.String.take (min (dst i).length b.String.length)).length
          = min (dst i).length b.String.length := by
        rw [List.length_take]
        omega
      rw [List.take_append_of_le_length (le_of_eq hlen.symm),
        List.take_of_length_le (le_of_eq hlen), List.take_append_drop]

theorem readEach_splits : ∀ (ps : List (List Byte)) (b : Buffer),
    (readEach b ps).2.1 = b.String.take (readEach b ps).1
      ∧ (readEach b ps).2.2.String = b.String.drop (readEach b ps).1 := by
  intro ps
  induction ps with
  | nil => intro b; simp [readEach]
  | cons p ps ih =>
    intro b
    by_cases hs : b.String = []
    · have hr := Buffer.read_drained b p hs
      have hn : NewBuffer.String = [] := rfl
      obtain ⟨i1, i2⟩ := ih NewBuffer
      rw [hn] at i1 i2
      simp only [readEach, hr, hs]
      simp [i1, i2]
    · obtain ⟨h1, h2, h3⟩ := Buffer.read_result b p hs
      obtain ⟨i1, i2⟩ := ih (b.Read p).2.2
      rw [h3] at i1 i2
      have hlen : (b.String.take (min p.length b.String.length)).length
          = min p.length b.String.length := by
        rw [List.length_take]
        omega
      simp only [readEach, h1]
      refine ⟨?_, ?_⟩
      · rw [i1, h2, List.take_append_of_le_length (le_of_eq hlen.symm),
          List.take_of_length_le (le_of_eq hlen), List.take_add]
      · rw [i2, List.drop_drop, Nat.add_comm]

/-- C6: a seeded Buffer reads back its data.  With destinations that are all
non-empty, reading `NewBufferWith data` until Read reports `io.EOF` ends
within `len data + 1` calls and collects exactly `data`; reading
`NewBuffer()` after `Write(p)` collects exactly `p`.  In both cases the Buffer
left behind is an empty one. -/
theorem read_to_completion_yields_data (data p : List Byte) (dst : Nat → List Byte)
    (hd : ∀ i, dst i ≠ []) :
    (∀ fuel, data.length + 1 ≤ fuel →
        readToEOF dst fuel 0 (NewBufferWith data) = some (data, NewBuffer))
      ∧ (∀ fuel, p.length + 1 ≤ fuel →
        readToEOF dst fuel 0 (NewBuffer.Write p).2 = some (p, NewBuffer)) := by
  refine ⟨?_, ?_⟩
  · intro fuel hf
    have h := readToEOF_drains dst hd fuel 0 (NewBufferWith data) (by
      simpa [NewBufferWith, BytesBuffer.NewBuffer, Buffer.String, BytesBuffer.String] using hf)
    simpa [NewBufferWith, BytesBuffer.NewBuffer, Buffer.String, BytesBuffer.String] using h
  · intro fuel hf
    have hw : (NewBuffer.Write p).2.String = p := by
      rw [Buffer.string_write]
      rfl
    have h := readToEOF_drains dst hd fuel 0 (NewBuffer.Write p).2 (by
      rw [hw]
      exact hf)
    rw [hw] at h
    exact h

/-- Witness of C6: five bytes read back through destinations of two bytes. -/
theorem read_to_completion_yields_data_witness :
    readToEOF (fun _ => [0, 0]) 6 0 (NewBufferWith [1, 2, 3, 4, 5])
        = some ([1, 2, 3, 4, 5], NewBuffer)
      ∧ readToEOF (fun _ => [0, 0]) 4 0 (NewBuffer.Write [7, 8, 9]).2
        = some ([7, 8, 9], NewBuffer) :=
  ⟨(read_to_completion_yields_data [1, 2, 3, 4, 5] [7, 8, 9] (fun _ => [0, 0])
      (fun _ => List.cons_ne_nil _ _)).1 6 (by decide),
   (read_to_completion_yields_data [1, 2, 3, 4, 5] [7, 8, 9] (fun _ => [0, 0])
      (fun _ => List.cons_ne_nil _ _)).2 4 (by decide)⟩

/-- C7: Close is a no-op.  Close returns nil and the Buffer it leaves is the
one it was given; so it is after any number of Closes; and Read, Write,
String and Seek after a Close give what they give without it. -/
theorem close_is_noop (b : Buffer) :
    b.Close.1 = none
      ∧ b.Close.2 = b
      ∧ b.Close.2.String = b.String
      ∧ (∀ k : Nat, Nat.iterate (fun s => (Buffer.Close s).2) k b = b
          ∧ (Buffer.Close (Nat.iterate (fun s => (Buffer.Close s).2) k b)).1 = none)
      ∧ (∀ p : List Byte, b.Close.2.Read p = b.Read p)
      ∧ (∀ p : List Byte, b.Close.2.Write p = b.Write p)
      ∧ (∀ offset whence : Int, b.Close.2.Seek offset whence = b.Seek offset whence) := by
  refine ⟨rfl, rfl, rfl, ?_, fun _ => rfl, fun _ => rfl, fun _ _ => rfl⟩
  intro k
  have hk : Nat.iterate (fun s => (Buffer.Close s).2) k b = b := by
    induction k with
    | zero => rfl
    | succ k ih =>
      rw [Function.iterate_succ_apply]
      exact ih
  exact ⟨hk, rfl⟩

/-- C8: String returns the unread portion and consumes nothing.
`NewBufferWith(data).String()` is `data`; after Reads (into any destinations
`ps`) that returned counts adding up to `n`, String is `data` without its first
`n` bytes, those `n` bytes being what the Reads delivered; and a call of
String leaves the Buffer as it was, so later Reads and Strings are unaffected. -/
theorem string_returns_unread (data : List Byte) (ps : List (List Byte)) (b : Buffer) :
    (NewBufferWith data).String = data
      ∧ (readEach (NewBufferWith data) ps).2.2.String
          = data.drop (readEach (NewBufferWith data) ps).1
      ∧ (readEach (NewBufferWith data) ps).2.1
          = data.take (readEach (NewBufferWith data) ps).1
      ∧ b.call Call.String = (Ret.String b.String, b)
      ∧ (∀ p : List Byte, (b.call Call.String).2.Read p = b.Read p)
      ∧ (b.call Call.String).2.String = b.String := by
  have h0 : (NewBufferWith data).String = data := rfl
  obtain ⟨h1, h2⟩ := readEach_splits ps (NewBufferWith data)
  rw [h0] at h1 h2
  exact ⟨h0, h2, h1, rfl, fun _ => rfl, rfl⟩

/-! ## Buffer: Write followed by Read -/

/-- C9 as written fails: on a fresh `NewBuffer()`, `Write([7])` followed by a
Read into one byte returns `(1, nil)` and delivers the byte `7` just written;
so it is not true that such a Read returns no byte of what was written. -/
theorem write_then_read_returns_written_byte :
    ((NewBuffer.Write [7]).2.Read [0]).1 = (1, none)
      ∧ ((NewBuffer.Write [7]).2.Read [0]).2.1 = [7]
      ∧ ¬ (∀ p q : List Byte, p ≠ [] → 0 < q.length →
            ((NewBuffer.Write p).2.Read q).1.1 = 0) := by
  refine ⟨by decide, by decide, ?_⟩
  intro h
  have h1 := h [7] [0] (by decide) (by decide)
  revert h1
  decide

/-- C9 amended: Write appends behind the unread bytes and the next Read starts
at the first unread byte.  For a Buffer with unread contents `u`, a non-empty
`p` and a non-empty destination `q`, `Write(p)` followed by `Read(q)` returns
`(n, nil)` with `n = min(len q, len u + len p) > 0`, delivers the first `n`
bytes of `u ++ p` and leaves the rest of `u ++ p` unread; on a fresh
`NewBuffer()` these are the first `min(len q, len p)` bytes of `p`. -/
theorem write_then_read_starts_at_unread (b : Buffer) (p q : List Byte)
    (hp : p ≠ []) (hq : 0 < q.length) :
    ((b.Write p).2.Read q).1 = (min q.length (b.String ++ p).length, none)
      ∧ 0 < min q.length (b.String ++ p).length
      ∧ ((b.Write p).2.Read q).2.1.take (min q.length (b.String ++ p).length)
          = (b.String ++ p).take (min q.length (b.String ++ p).length)
      ∧ ((b.Write p).2.Read q).2.2.String
          = (b.String ++ p).drop (min q.length (b.String ++ p).length)
      ∧ ((NewBuffer.Write p).2.Read q).1 = (min q.length p.length, none)
      ∧ ((NewBuffer.Write p).2.Read q).2.1.take (min q.length p.length)
          = p.take (min q.length p.length) := by
  have key : ∀ c : Buffer,
      ((c.Write p).2.Read q).1 = (min q.length (c.String ++ p).length, none)
        ∧ ((c.Write p).2.Read q).2.1.take (min q.length (c.String ++ p).length)
            = (c.String ++ p).take (min q.length (c.String ++ p).length)
        ∧ ((c.Write p).2.Read q).2.2.String
            = (c.String ++ p).drop (min q.length (c.String ++ p).length) := by
    intro c
    have hw := Buffer.string_write c p
    have hne : (c.Write p).2.String ≠ [] := by
      rw [hw]
      simp [hp]
    obtain ⟨h1, h2, h3⟩ := Buffer.read_result (c.Write p).2 q hne
    rw [hw] at h1 h2 h3
    have hlen : ((c.String ++ p).take (min q.length (c.String ++ p).length)).length
        = min q.length (c.String ++ p).length := by
      rw [List.length_take]
      omega
    refine ⟨h1, ?_, h3⟩
    rw [h2, List.take_append_of_le_length (le_of_eq hlen.symm),
      List.take_of_length_le (le_of_eq hlen)]
  have hplen : 0 < p.length := List.length_pos.mpr hp
  obtain ⟨k1, k2, k3⟩ := key b
  obtain ⟨n1, n2, -⟩ := key NewBuffer
  have hn : NewBuffer.String = [] := rfl
  rw [hn, List.nil_append] at n1 n2
  refine ⟨k1, ?_, k2, k3, n1, n2⟩
  rw [List.length_append]
  omega

/-- Witness of C9 amended: one unread byte, two bytes written, two bytes read. -/
theorem write_then_read_starts_at_unread_witness :
    (((NewBufferWith [1]).Write [7, 8]).2.Read [0, 0]).1 = (2, none)
      ∧ (((NewBufferWith [1]).Write [7, 8]).2.Read [0, 0]).2.2.String = [8] := by
  have h := write_then_read_starts_at_unread (NewBufferWith [1]) [7, 8] [0, 0]
    (by decide) (by decide)
  exact ⟨h.1, h.2.2.2.1⟩

/-! ## Node -/

/-- C10: `NewNodeFile(name, content)` is a file holding that content: its Name
is `name`, IsDir is false, Size is `len content` (hence not negative), its
content is `content` and it has no children. -/
theorem new_node_file_holds_content (name : String) (content : Binary) :
    (NewNodeFile name content).Name = name
      ∧ (NewNodeFile name content).IsDir = false
      ∧ (NewNodeFile name content).Size = (content.length : Int)
      ∧ 0 ≤ (NewNodeFile name content).Size
      ∧ (NewNodeFile name content).content = content
      ∧ (NewNodeFile name content).children = [] :=
  ⟨rfl, rfl, rfl, Int.ofNat_nonneg _, rfl, rfl⟩

/-- C11: `NewNodeDir(name)` is a directory without content: its Name is `name`,
IsDir is true, Size is 0, its content is empty and it has no children; hence
a node built by NewNodeDir or by NewNodeFile is never both a directory and a
holder of non-empty content. -/
theorem new_node_dir_has_no_content (name : String) (content : Binary) :
    (NewNodeDir name).Name = name
      ∧ (NewNodeDir name).IsDir = true
      ∧ (NewNodeDir name).Size = 0
      ∧ (NewNodeDir name).content = []
      ∧ (NewNodeDir name).children = []
      ∧ ¬ ((NewNodeDir name).IsDir = true ∧ (NewNodeDir name).content ≠ [])
      ∧ ¬ ((NewNodeFile name content).IsDir = true
            ∧ (NewNodeFile name content).content ≠ []) := by
  refine ⟨rfl, rfl, rfl, rfl, rfl, ?_, ?_⟩
  · rintro ⟨-, h⟩
    exact h rfl
  · rintro ⟨h, -⟩
    exact Bool.noConfusion h

/-- C12: the mode of a node is a fixed default.  For every Node, whatever its
name, kind, content and children, Mode returns 0 and Sys returns nil; in
particular for the nodes NewNodeDir and NewNodeFile build, and any two nodes
have the same Mode. -/
theorem mode_is_fixed_default (n m : Node) (name : String) (content : Binary) :
    n.Mode = 0
      ∧ n.Sys = none
      ∧ n.Mode = m.Mode
      ∧ (NewNodeDir name).Mode = 0 ∧ (NewNodeDir name).Sys = none
      ∧ (NewNodeFile name content).Mode = 0 ∧ (NewNodeFile name content).Sys = none :=
  ⟨rfl, rfl, rfl, rfl, rfl, rfl, rfl⟩

/-! ## Buffer: sequences of calls -/

theorem Buffer.run_conserves : ∀ (calls : List Call) (b : Buffer),
    (b.run calls).1 ++ (b.run calls).2.2.String = b.String ++ (b.run calls).2.1 := by
  intro calls
  induction calls with
  | nil => intro b; simp [Buffer.run]
  | cons c cs ih =>
    intro b
    cases c with
    | Read p =>
      by_cases hs : b.String = []
      · have hr := Buffer.read_drained b p hs
        have h := ih NewBuffer
        have hn : NewBuffer.String = [] := rfl
        rw [hn] at h
        simp only [Buffer.run, Buffer.call, hr, Ret.delivered, Call.written, hs]
        simpa using h
      · obtain ⟨h1, h2, h3⟩ := Buffer.read_result b p hs
        have h := ih (b.Read p).2.2
        rw [h3] at h
        have hlen : (b.String.take (min p.length b.String.length)).length
            = min p.length b.String.length := by
          rw [List.length_take]
          omega
        simp only [Buffer.run, Buffer.call, Ret.delivered, Call.written, h1, h2]
        rw [List.take_append_of_le_length (le_of_eq hlen.symm),
          List.take_of_length_le (le_of_eq hlen), List.append_assoc, h, List.nil_append,
          ← List.append_assoc, List.take_append_drop]
    | Write p =>
      have h := ih (b.Write p).2
      rw [Buffer.string_write] at h
      simp only [Buffer.run, Buffer.call, Ret.delivered, Call.written, List.nil_append]
      rw [h, List.append_assoc]
    | Close =>
      have h := ih b
      simpa [Buffer.run, Buffer.call, Buffer.Close, Ret.delivered, Call.written] using h
    | String =>
      have h := ih b
      simpa [Buffer.run, Buffer.call, Ret.delivered, Call.written] using h
    | Seek offset whence =>
      have h := ih b
      simpa [Buffer.run, Buffer.call, Buffer.Seek, Ret.delivered, Call.written] using h

/-- C15: stream conservation.  For every `data` and every finite sequence of
Read, Write, Seek, Close and String calls on `NewBufferWith(data)`, the bytes
the Reads delivered followed by the unread contents are `data` followed by
the bytes written, in order; the same holds from any Buffer with its unread
contents in the place of `data`. -/
theorem stream_is_conserved (data : List Byte) (calls : List Call) (b : Buffer) :
    ((NewBufferWith data).run calls).1 ++ ((NewBufferWith data).run calls).2.2.String
        = data ++ ((NewBufferWith data).run calls).2.1
      ∧ (b.run calls).1 ++ (b.run calls).2.2.String = b.String ++ (b.run calls).2.1 :=
  ⟨Buffer.run_conserves calls (NewBufferWith data), Buffer.run_conserves calls b⟩

/-! ## Node: IsDir and Mode -/

/-- C16 as written fails: the directory node `NewNodeDir("assets")` has IsDir
true while its `Mode()` is 0, whose directory bit is clear, so that
`Mode().IsDir()` is false; hence IsDir and `Mode().IsDir()` do not agree on
every node the constructors build. -/
theorem dir_node_mode_lacks_dir_bit :
    (NewNodeDir "assets").IsDir = true
      ∧ (NewNodeDir "assets").Mode = 0
      ∧ FileMode.IsDir (NewNodeDir "assets").Mode = false
      ∧ (NewNodeDir "assets").IsDir ≠ FileMode.IsDir (NewNodeDir "assets").Mode
      ∧ ¬ (∀ name : String, (NewNodeDir name).IsDir = FileMode.IsDir (NewNodeDir name).Mode) := by
  have h0 : FileMode.IsDir 0 = false := by decide
  have h1 : (NewNodeDir "assets").IsDir ≠ FileMode.IsDir (NewNodeDir "assets").Mode := by
    change true ≠ FileMode.IsDir 0
    rw [h0]
    decide
  exact ⟨rfl, rfl, h0, h1, fun h => h1 (h "assets")⟩

/-- C16 amended: the Mode of a node has no directory bit.  `Mode()` is the
fixed default 0 for every Node, so `Mode().IsDir()` is false for every Node;
IsDir agrees with it on every node NewNodeFile builds (both are false), and on
every node NewNodeDir builds IsDir is true while `Mode().IsDir()` is false. -/
theorem is_dir_agrees_with_mode_on_files (n : Node) (name : String) (content : Binary) :
    FileMode.IsDir n.Mode = false
      ∧ (NewNodeFile name content).IsDir = FileMode.IsDir (NewNodeFile name content).Mode
      ∧ (NewNodeFile name content).IsDir = false
      ∧ (NewNodeDir name).IsDir = true
      ∧ FileMode.IsDir (NewNodeDir name).Mode = false := by
  have h0 : FileMode.IsDir 0 = false := by decide
  refine ⟨h0, ?_, rfl, rfl, h0⟩
  change false = FileMode.IsDir 0
  rw [h0]

/-! ## Buffer: after end-of-file -/

/-- C17: end-of-file is not sticky.  When a Read has returned `(0, io.EOF)`,
the Buffer it leaves is the one `NewBuffer()` makes, so every later sequence
of calls gives what it gives on a fresh Buffer; for a non-empty `p` the next
`Write(p)` returns `(len p, nil)`, and the Read after it into a `q` with
`len q ≥ len p` returns `(len p, nil)`, puts exactly the bytes of `p` at the
front of `q` and leaves nothing unread. -/
theorem eof_is_not_sticky (b : Buffer) (r p q : List Byte)
    (heof : (b.Read r).1 = (0, some Error.EOF)) (hp : p ≠ []) (hq : p.length ≤ q.length) :
    (b.Read r).2.2 = NewBuffer
      ∧ (∀ calls : List Call, (b.Read r).2.2.run calls = NewBuffer.run calls)
      ∧ ((b.Read r).2.2.Write p).1 = (p.length, none)
      ∧ (((b.Read r).2.2.Write p).2.Read q).1 = (p.length, none)
      ∧ (((b.Read r).2.2.Write p).2.Read q).2.1.take p.length = p
      ∧ (((b.Read r).2.2.Write p).2.Read q).2.1.drop p.length = q.drop p.length
      ∧ (((b.Read r).2.2.Write p).2.Read q).2.2.String = [] := by
  have hs : b.String = [] := by
    by_contra hne
    have h1 := (Buffer.read_result b r hne).1
    rw [h1] at heof
    simp at heof
  have hb : (b.Read r).2.2 = NewBuffer := by
    rw [Buffer.read_drained b r hs]
  have hw : (NewBuffer.Write p).2.String = p := by
    rw [Buffer.string_write]
    rfl
  have hne : (NewBuffer.Write p).2.String ≠ [] := by
    rw [hw]
    exact hp
  obtain ⟨h1, h2, h3⟩ := Buffer.read_result (NewBuffer.Write p).2 q hne
  rw [hw] at h1 h2 h3
  have hmin : min q.length p.length = p.length := Nat.min_eq_right hq
  rw [hmin] at h1 h2 h3
  rw [hb]
  refine ⟨rfl, fun _ => rfl, (Buffer.write_result NewBuffer p).1, h1, ?_, ?_, ?_⟩
  · rw [h2, List.take_of_length_le (le_refl _), List.take_append_of_le_length (le_refl _),
      List.take_of_length_le (le_refl _)]
  · rw [h2, List.take_of_length_le (le_refl _), List.drop_append_of_le_length (le_refl _),
      List.drop_of_length_le (le_refl _), List.nil_append]
  · rw [h3, List.drop_of_length_le (le_refl _)]

/-- Witness of C17: a fresh Buffer read at end-of-file, three bytes written
and read back into a destination of four. -/
theorem eof_is_not_sticky_witness :
    (((NewBuffer.Read [0]).2.2.Write [1, 2, 3]).2.Read [9, 9, 9, 9]).1 = (3, none)
      ∧ (((NewBuffer.Read [0]).2.2.Write [1, 2, 3]).2.Read [9, 9, 9, 9]).2.1.take 3
          = [1, 2, 3] := by
  have h := eof_is_not_sticky NewBuffer [0] [1, 2, 3] [9, 9, 9, 9] (by decide) (by decide)
    (by decide)
  exact ⟨h.2.2.2.1, h.2.2.2.2.1⟩

/-! ## Walk -/

theorem visitEach_error {α ε σ : Type} (visit : σ → α → σ × Option ε) :
    ∀ (entries : List α) (s : σ) (a : α) (E : ε),
      (a, some E) ∈ (visitEach visit entries s).2 →
        (visitEach visit entries s).1.2 = some E
          ∧ (visitEach visit entries s).2.getLast? = some (a, some E)
          ∧ (visitEach visit entries s).2.length ≤ entries.length := by
  intro entries
  induction entries with
  | nil =>
    intro s a E h
    simp [visitEach] at h
  | cons x rest ih =>
    intro s a E h
    rw [visitEach] at h ⊢
    rcases hv : visit s x with ⟨s1, _ | err⟩
    · rw [hv] at h
      dsimp only at h ⊢
      simp only [List.mem_cons, Prod.mk.injEq, reduceCtorEq, and_false, false_or] at h
      obtain ⟨h1, h2, h3⟩ := ih s1 a E h
      refine ⟨h1, ?_, by simpa using h3⟩
      have hne : (visitEach visit rest s1).2 ≠ [] := List.ne_nil_of_mem h
      obtain ⟨y, ys, hy⟩ := List.exists_cons_of_ne_nil hne
      simp only [hy] at h2 ⊢
      simpa [List.getLast?_cons_cons] using h2
    · rw [hv] at h
      dsimp only at h ⊢
      simp only [List.mem_singleton, Prod.mk.injEq, Option.some.injEq] at h
      obtain ⟨ha, hE⟩ := h
      subst ha
      subst hE
      simp

/-- C13: Walk returns the visit callback's error unchanged.  For every
FileSystem, root, callback and error value `E`: if among the calls Walk made
the callback returned `E` on an entry, then Walk returns exactly `E`, that
call is the last one Walk made, and the entries after it stay unvisited
however many they are.  The call on a root that could not be opened or read,
which hands the callback that error, is one of these calls. -/
theorem walk_returns_visit_error {α ε σ : Type} (fs : FileSystem α ε) (root : List String)
    (visit : σ → Visit α ε → σ × Option ε) (s : σ) (a : Visit α ε) (E : ε)
    (h : (a, some E) ∈ (fs.Walk root visit s).2) :
    (fs.Walk root visit s).1.2 = some E
      ∧ (fs.Walk root visit s).2.getLast? = some (a, some E) := by
  unfold FileSystem.Walk at h ⊢
  cases hl : fs.list root with
  | error err =>
    rw [hl] at h
    obtain ⟨h1, h2, -⟩ := visitEach_error visit _ s a E h
    exact ⟨h1, h2⟩
  | ok entries =>
    rw [hl] at h
    obtain ⟨h1, h2, -⟩ := visitEach_error visit _ s a E h
    exact ⟨h1, h2⟩

/-- Witness of C13: the walk of the test, over the root `/wrong` that does not
exist, with a callback that returns "Oh no!"; and a walk of three entries
whose callback fails on the second, the third staying unvisited. -/
theorem walk_returns_visit_error_witness :
    ((FileSystem.mk (fun _ => (Except.error "lstat /wrong: no such file or directory" :
          Except String (List (List String × Unit))))).Walk
        ["wrong"] (fun (s : Unit) (_ : Visit Unit String) => (s, some "Oh no!")) ()).1.2
        = some "Oh no!"
      ∧ ((FileSystem.mk (fun _ => (Except.ok [([], ()), (["a"], ()), (["b"], ())] :
          Except String (List (List String × Unit))))).Walk
        [] (fun (k : Nat) (_ : Visit Unit String) =>
          (k + 1, if k = 1 then some "stop" else none)) 0).1 = (2, some "stop") :=
  ⟨(walk_returns_visit_error
      (FileSystem.mk (fun _ => (Except.error "lstat /wrong: no such file or directory" :
        Except String (List (List String × Unit)))))
      ["wrong"] (fun (s : Unit) (_ : Visit Unit String) => (s, some "Oh no!")) ()
      ⟨["wrong"], none, some "lstat /wrong: no such file or directory"⟩ "Oh no!"
      (by simp [FileSystem.Walk, visitEach])).1,
   by
    have h := walk_returns_visit_error
      (FileSystem.mk (fun _ => (Except.ok [([], ()), (["a"], ()), (["b"], ())] :
        Except String (List (List String × Unit)))))
      [] (fun (k : Nat) (_ : Visit Unit String) =>
        (k + 1, if k = 1 then some "stop" else none)) 0
      ⟨["a"], some (), none⟩ "stop" (by simp [FileSystem.Walk, visitEach])
    simp [FileSystem.Walk, visitEach]⟩

/-! ## Compress and Compose -/

theorem Node.walk_mk (path : List String) (name : String) (dir : Bool) (content : Binary)
    (children : List Node) :
    (Node.mk name dir content children).walk path
      = (if dir then Entry.dir path else Entry.file path content)
          :: walkChildren path children := by
  rw [Node.walk]

theorem walkChildren_nil (path : List String) : walkChildren path [] = [] := by
  rw [walkChildren]

theorem walkChildren_cons (path : List String) (c : Node) (cs : List Node) :
    walkChildren path (c :: cs) = c.walk (path ++ [c.name]) ++ walkChildren path cs := by
  rw [walkChildren]

theorem walkChildren_append (path : List String) : ∀ l1 l2 : List Node,
    walkChildren path (l1 ++ l2) = walkChildren path l1 ++ walkChildren path l2 := by
  intro l1
  induction l1 with
  | nil => intro l2; rw [walkChildren_nil, List.nil_append, List.nil_append]
  | cons c cs ih =>
    intro l2
    rw [List.cons_append, walkChildren_cons, walkChildren_cons, ih, List.append_assoc]

theorem mem_walkChildren (path : List String) (x : Entry) : ∀ cs : List Node,
    x ∈ walkChildren path cs ↔ ∃ c, c ∈ cs ∧ x ∈ c.walk (path ++ [c.name]) := by
  intro cs
  induction cs with
  | nil => simp [walkChildren_nil]
  | cons c cs ih =>
    rw [walkChildren_cons, List.mem_append, ih]
    constructor
    · rintro (h | ⟨k, hk, hx⟩)
      · exact ⟨c, List.mem_cons_self _ _, h⟩
      · exact ⟨k, List.mem_cons_of_mem _ hk, hx⟩
    · rintro ⟨k, hk, hx⟩
      rcases List.mem_cons.mp hk with rfl | hk
      · exact Or.inl hx
      · exact Or.inr ⟨k, hk, hx⟩

theorem Node.walk_head (n : Node) (path : List String) :
    ∃ x, x ∈ n.walk path ∧ x.path = path := by
  obtain ⟨name, dir, content, children⟩ := n
  rw [Node.walk_mk]
  cases dir
  · exact ⟨Entry.file path content, List.mem_cons_self _ _, rfl⟩
  · exact ⟨Entry.dir path, List.mem_cons_self _ _, rfl⟩

mutual
theorem Node.walk_path : ∀ (n : Node) (path : List String) (x : Entry),
    x ∈ n.walk path → ∃ s, x.path = path ++ s
  | Node.mk name dir content children, path, x, h => by
    rw [Node.walk_mk] at h
    rcases List.mem_cons.mp h with h | h
    · refine ⟨[], ?_⟩
      subst h
      cases dir <;> simp [Entry.path]
    · exact walkChildren_path children path x h
theorem walkChildren_path : ∀ (cs : List Node) (path : List String) (x : Entry),
    x ∈ walkChildren path cs → ∃ s, x.path = path ++ s
  | [], path, x, h => by
    rw [walkChildren_nil] at h
    exact absurd h (List.not_mem_nil x)
  | c :: cs, path, x, h => by
    rw [walkChildren_cons] at h
    rcases List.mem_append.mp h with h | h
    · obtain ⟨s, hs⟩ := Node.walk_path c (path ++ [c.name]) x h
      exact ⟨c.name :: s, by rw [hs, List.append_assoc, List.singleton_append]⟩
    · exact walkChildren_path cs path x h
end

theorem updateChild_absent (nm : String) (f : Node → Node) (new : Node) :
    ∀ kids : List Node, (∀ k ∈ kids, k.name ≠ nm) →
      updateChild nm f new kids = kids ++ [new] := by
  intro kids
  induction kids with
  | nil => intro _; rfl
  | cons c cs ih =>
    intro h
    have hc : c.name ≠ nm := h c (List.mem_cons_self _ _)
    have hcs := ih (fun k hk => h k (List.mem_cons_of_mem _ hk))
    simp [updateChild, hc, hcs]

theorem updateChild_split (nm : String) (f : Node → Node) (new : Node) :
    ∀ (l1 : List Node) (k : Node) (l2 : List Node), (∀ c ∈ l1, c.name ≠ nm) → k.name = nm →
      updateChild nm f new (l1 ++ k :: l2) = l1 ++ f k :: l2 := by
  intro l1
  induction l1 with
  | nil =>
    intro k l2 _ hk
    simp [updateChild, hk]
  | cons c cs ih =>
    intro k l2 h hk
    have hc : c.name ≠ nm := h c (List.mem_cons_self _ _)
    have hcs := ih k l2 (fun x hx => h x (List.mem_cons_of_mem _ hx)) hk
    simp [updateChild, hc, hcs]

theorem exists_first_named (nm : String) : ∀ kids : List Node,
    (∃ k, k ∈ kids ∧ k.name = nm) →
      ∃ l1 k l2, kids = l1 ++ k :: l2 ∧ (∀ c ∈ l1, c.name ≠ nm) ∧ k.name = nm := by
  intro kids
  induction kids with
  | nil =>
    rintro ⟨k, hk, -⟩
    exact absurd hk (List.not_mem_nil k)
  | cons c cs ih =>
    rintro ⟨k, hk, hname⟩
    by_cases hc : c.name = nm
    · exact ⟨[], c, cs, rfl, fun x hx => absurd hx (List.not_mem_nil x), hc⟩
    · rcases List.mem_cons.mp hk with rfl | hk
      · exact absurd hname hc
      · obtain ⟨l1, k1, l2, h1, h2, h3⟩ := ih ⟨k, hk, hname⟩
        refine ⟨c :: l1, k1, l2, by rw [h1, List.cons_append], ?_, h3⟩
        intro x hx
        rcases List.mem_cons.mp hx with rfl | hx
        · exact hc
        · exact h2 x hx

theorem createAt_name (e : Entry) (nm : String) (rest : List String) :
    (createAt e nm rest).name = nm := by
  cases rest with
  | nil => cases e <;> rfl
  | cons r rs => rfl

theorem createAt_walk (e : Entry) (nm : String) (path : List String) (h : e.path = path) :
    (createAt e nm []).walk path = [e] := by
  subst h
  cases e with
  | dir p => simp [createAt, NewNodeDir, Node.walk_mk, walkChildren_nil, Entry.path]
  | file p c => simp [createAt, NewNodeFile, Node.walk_mk, walkChildren_nil, Entry.path]

theorem place_name (e : Entry) (nm : String) (rest : List String) (t : Node) :
    (place e (nm :: rest) t).name = t.name := by
  obtain ⟨name, dir, content, children⟩ := t
  rfl

theorem name_of_mem_walk (c : Node) (pre q : List String) (nm : String) (x : Entry)
    (hx : x ∈ c.walk (pre ++ [c.name])) (hp : x.path = pre ++ nm :: q) : c.name = nm := by
  obtain ⟨s, hs⟩ := Node.walk_path c (pre ++ [c.name]) x hx
  rw [hp, List.append_assoc, List.singleton_append] at hs
  have h := List.append_cancel_left hs
  exact (List.cons.inj h).1.symm

theorem place_perm (e : Entry) : ∀ (p pre : List String) (t : Node),
    p ≠ [] → e.path = pre ++ p →
    (∀ x ∈ t.walk pre, x.path ≠ pre ++ p) →
    Entry.dir (pre ++ p.dropLast) ∈ t.walk pre →
    ((t.walk pre).map Entry.path).Nodup →
    ((place e p t).walk pre).Perm (e :: t.walk pre) := by
  intro p
  induction p with
  | nil => intro pre t h; exact absurd rfl h
  | cons nm rest ih =>
    intro pre t _ hpath hfresh hparent hnd
    obtain ⟨name, dir, content, kids⟩ := t
    cases rest with
    | nil =>
      have hno : ∀ k ∈ kids, k.name ≠ nm := by
        intro k hk hname
        obtain ⟨x, hx, hxp⟩ := Node.walk_head k (pre ++ [k.name])
        have hmem : x ∈ (Node.mk name dir content kids).walk pre := by
          rw [Node.walk_mk]
          exact List.mem_cons_of_mem _ ((mem_walkChildren pre x kids).2 ⟨k, hk, hx⟩)
        exact hfresh x hmem (by rw [hxp, hname])
      have hplace : place e [nm] (Node.mk name dir content kids)
          = Node.mk name dir content (kids ++ [createAt e nm []]) := by
        rw [place, updateChild_absent nm _ _ kids hno]
      rw [hplace, Node.walk_mk, Node.walk_mk, walkChildren_append, walkChildren_cons,
        walkChildren_nil, createAt_name, createAt_walk e nm _ hpath, List.append_nil,
        ← List.cons_append]
      exact List.perm_append_singleton e _
    | cons r rs =>
      have hdl : (nm :: r :: rs).dropLast = nm :: (r :: rs).dropLast := rfl
      rw [hdl] at hparent
      rw [Node.walk_mk] at hparent hnd hfresh
      have hpk : Entry.dir (pre ++ nm :: (r :: rs).dropLast) ∈ walkChildren pre kids := by
        rcases List.mem_cons.mp hparent with h | h
        · exfalso
          have hp : (Entry.dir (pre ++ nm :: (r :: rs).dropLast)).path = pre := by
            rw [h]
            cases dir <;> rfl
          have hlen := congrArg List.length hp
          simp [Entry.path] at hlen
        · exact h
      obtain ⟨k1, hk1, hx1⟩ := (mem_walkChildren pre _ kids).1 hpk
      have hname1 : k1.name = nm := name_of_mem_walk k1 pre _ nm _ hx1 rfl
      obtain ⟨l1, k, l2, hsplit, hl1, hk⟩ := exists_first_named nm kids ⟨k1, hk1, hname1⟩
      subst hsplit
      have hW : walkChildren pre (l1 ++ k :: l2)
          = walkChildren pre l1 ++ (k.walk (pre ++ [nm]) ++ walkChildren pre l2) := by
        rw [walkChildren_append, walkChildren_cons, hk]
      rw [hW] at hnd hfresh hpk
      rw [List.map_cons, List.nodup_cons, List.map_append, List.map_append] at hnd
      obtain ⟨-, hnd1⟩ := hnd
      have hnd2 := (List.nodup_append.1 hnd1).2.1
      obtain ⟨hndk, -, hdisj⟩ := List.nodup_append.1 hnd2
      have hin : Entry.dir (pre ++ nm :: (r :: rs).dropLast) ∈ k.walk (pre ++ [nm]) := by
        rcases List.mem_append.mp hpk with h | h
        · exfalso
          obtain ⟨c, hc, hxc⟩ := (mem_walkChildren pre _ l1).1 h
          exact hl1 c hc (name_of_mem_walk c pre _ nm _ hxc rfl)
        · rcases List.mem_append.mp h with h | h
          · exact h
          · exfalso
            obtain ⟨c, hc, hxc⟩ := (mem_walkChildren pre _ l2).1 h
            have hcn : c.name = nm := name_of_mem_walk c pre _ nm _ hxc rfl
            obtain ⟨y, hy, hyp⟩ := Node.walk_head c (pre ++ [c.name])
            obtain ⟨z, hz, hzp⟩ := Node.walk_head k (pre ++ [nm])
            rw [hcn] at hyp
            have h1 : pre ++ [nm] ∈ (k.walk (pre ++ [nm])).map Entry.path :=
              List.mem_map.2 ⟨z, hz, hzp⟩
            have h2 : pre ++ [nm] ∈ (walkChildren pre l2).map Entry.path :=
              List.mem_map.2 ⟨y, (mem_walkChildren pre y l2).2 ⟨c, hc, hy⟩, hyp⟩
            exact hdisj h1 h2
      have hrec := ih (pre ++ [nm]) k (List.cons_ne_nil _ _)
        (by rw [hpath, List.append_assoc, List.singleton_append])
        (by
          intro x hx
          rw [List.append_assoc, List.singleton_append]
          exact hfresh x (List.mem_cons_of_mem _
            (List.mem_append_right _ (List.mem_append_left _ hx))))
        (by
          rw [List.append_assoc, List.singleton_append]
          exact hin)
        hndk
      have hplace : place e (nm :: r :: rs) (Node.mk name dir content (l1 ++ k :: l2))
          = Node.mk name dir content (l1 ++ place e (r :: rs) k :: l2) := by
        rw [place, updateChild_split nm _ _ l1 k l2 hl1 hk]
      rw [hplace, Node.walk_mk, Node.walk_mk, hW, walkChildren_append, walkChildren_cons,
        place_name, hk]
      refine List.Perm.trans (List.Perm.cons _ ?_) (List.Perm.swap _ _ _)
      refine List.Perm.trans (List.Perm.append_left _ (List.Perm.append_right _ hrec)) ?_
      rw [List.cons_append]
      exact List.perm_middle

theorem validFrom_cons (seen : List Entry) (e : Entry) (es : List Entry) :
    validFrom seen (e :: es) = true ↔
      e.path ≠ [] ∧ (∀ x ∈ seen, x.path ≠ e.path) ∧ Entry.dir e.path.dropLast ∈ seen
        ∧ validFrom (e :: seen) es = true := by
  simp [validFrom, List.isEmpty_iff, and_assoc]

theorem replay_perm : ∀ (es seen : List Entry) (t : Node),
    validFrom seen es = true → (t.walk []).Perm seen → (seen.map Entry.path).Nodup →
      ((es.foldl (fun t e => place e e.path t) t).walk []).Perm (seen ++ es) := by
  intro es
  induction es with
  | nil =>
    intro seen t _ hperm _
    simpa using hperm
  | cons e es ih =>
    intro seen t hv hperm hnd
    obtain ⟨hne, hfresh, hpar, hrest⟩ := (validFrom_cons seen e es).1 hv
    have hstep : ((place e e.path t).walk []).Perm (e :: t.walk []) :=
      place_perm e e.path [] t hne (List.nil_append _).symm
        (fun x hx => by
          rw [List.nil_append]
          exact hfresh x (hperm.mem_iff.1 hx))
        (by
          rw [List.nil_append]
          exact hperm.mem_iff.2 hpar)
        ((hperm.map Entry.path).nodup_iff.2 hnd)
    have hperm1 : ((place e e.path t).walk []).Perm (e :: seen) :=
      hstep.trans (hperm.cons e)
    have hnd1 : ((e :: seen).map Entry.path).Nodup := by
      rw [List.map_cons, List.nodup_cons]
      refine ⟨?_, hnd⟩
      intro h
      obtain ⟨x, hx, hxp⟩ := List.mem_map.1 h
      exact hfresh x hx hxp
    have h := ih (e :: seen) (place e e.path t) hrest hperm1 hnd1
    rw [List.foldl_cons]
    exact h.trans List.perm_middle.symm

theorem visitEach_collect {ε : Type} : ∀ (es acc : List Entry),
    visitEach record (es.map (fun e => (⟨e.path, some e, none⟩ : Visit Entry ε))) acc
      = ((acc ++ es, none),
          es.map (fun e => ((⟨e.path, some e, none⟩ : Visit Entry ε), none))) := by
  intro es
  induction es with
  | nil => intro acc; simp [visitEach]
  | cons e es ih =>
    intro acc
    rw [List.map_cons, visitEach]
    simp [record, ih]

/-- C14: Compose undoes Compress.  Let a FileSystem list, for a walk from its
root, the entries of a file tree (the root directory first, each path once,
each entry after the directory that holds it) and let the codec give a listing
back from its own encoding.  Then Compress succeeds with a Bundle whose Length
is the number of entries visited, Compose of that Bundle into an empty root
succeeds, and the walk of the Node tree it builds has the entries of the
listing, each exactly once with its path, its kind and its content. -/
theorem compose_undoes_compress {ε : Type} (codec : Codec) (name rootName : String)
    (fs : FileSystem Entry ε) (entries : List Entry)
    (hlist : fs.list [] = Except.ok (entries.map (fun e => (e.path, e))))
    (hvalid : validListing entries = true)
    (hcodec : codec.decode (codec.encode entries) = some entries) :
    ∃ b t, Compress codec name fs = Except.ok b
      ∧ b.Length = Int.ofNat entries.length
      ∧ (fs.Walk [] record []).2.length = entries.length
      ∧ Compose codec b (NewNodeDir rootName) = Except.ok t
      ∧ (t.walk []).Perm entries := by
  have hwalk : fs.Walk [] record []
      = ((entries, none),
          entries.map (fun e => ((⟨e.path, some e, none⟩ : Visit Entry ε), none))) := by
    unfold FileSystem.Walk
    rw [hlist]
    have h := visitEach_collect (ε := ε) entries []
    rw [List.nil_append] at h
    rw [← h]
    simp only [List.map_map]
    rfl
  refine ⟨⟨name, Int.ofNat entries.length, codec.encode entries⟩,
    entries.foldl (fun t e => place e e.path t) (NewNodeDir rootName), ?_, rfl, ?_, ?_, ?_⟩
  · unfold Compress
    rw [hwalk]
  · rw [hwalk]
    simp
  · unfold Compose
    simp only [hcodec]
    rw [if_pos trivial]
  · match entries, hvalid with
    | Entry.dir [] :: rest, hv =>
      have hv1 : validFrom [Entry.dir []] rest = true := hv
      have h := replay_perm rest [Entry.dir []] (NewNodeDir rootName) hv1
        (by simp [NewNodeDir, Node.walk_mk, walkChildren_nil]) (by simp)
      simpa [List.foldl_cons, place] using h

/-- Witness of C14: the Node-backed file system of a tree of five entries,
bundled with an uncompressed codec and composed into an empty root. -/
theorem compose_undoes_compress_witness :
    ∃ b t, Compress plainCodec "assets" sampleTree.fileSystem = Except.ok b
      ∧ b.Length = 5
      ∧ Compose plainCodec b (NewNodeDir "") = Except.ok t
      ∧ (t.walk []).Perm (sampleTree.walk []) := by
  obtain ⟨b, t, h1, h2, -, h4, h5⟩ :=
    compose_undoes_compress plainCodec "assets" "" sampleTree.fileSystem (sampleTree.walk [])
      rfl (by decide) (by decide)
  exact ⟨b, t, h1, h2, h4, h5⟩

end Parcel
